import Mathlib

/-!
Shallow embedding of the product-catalog cache subsystem of the
Cellar Society application (`app.py`): the `ProductHashTable` in-memory
cache, the `load_products_to_cache` bulk loader, and the admin product
mutation handlers, together with proofs of the specified properties.

Field values other than the integer product identifier are kept abstract
(a type parameter `V`): the cache and loader never inspect them, they only
move them around.
-/

namespace CellarSociety

/-- Row of the `products` table as returned by `SELECT * FROM products`:
eleven columns in the schema's positional order `p[0] .. p[10]`
(id, name, type, region, vintage, price, alcohol, stock, description,
image_url, created_at). -/
structure Row (V : Type) where
  id : Int
  name : V
  type : V
  region : V
  vintage : V
  price : V
  alcohol : V
  stock : V
  description : V
  image_url : V
  created_at : V
deriving DecidableEq, Repr

/-- Record stored in the cache by `load_products_to_cache` (app.py lines
134–145): the ten keys `'id' .. 'image_url'`; the row's `created_at`
column (`p[10]`) is not copied. -/
structure ProductRecord (V : Type) where
  id : Int
  name : V
  type : V
  region : V
  vintage : V
  price : V
  alcohol : V
  stock : V
  description : V
  image_url : V
deriving DecidableEq, Repr

/-- State of `ProductHashTable.table`: a Python dict modelled as its list
of key/value entries in insertion order (keys are unique in any state a
dict can reach). -/
abbrev Table (V : Type) : Type := List (Int × ProductRecord V)

/-- Dict state made by `ProductHashTable.__init__`: `self.table = {}`. -/
def emptyTable (V : Type) : Table V := []

/-- Embeds `ProductHashTable.insert` (app.py lines 108–109):
`self.table[product_id] = product_data`, a dict assignment, which
overwrites the entry for the key in place if present and otherwise
appends a new entry at the end. -/
def insert {V : Type} : Table V → Int → ProductRecord V → Table V
  | [], k, v => [(k, v)]
  | e :: rest, k, v =>
      if e.1 = k then (k, v) :: rest else e :: insert rest k v

/-- Embeds `ProductHashTable.get` (app.py lines 111–112):
`self.table.get(product_id, None)` — the record under the key, or the
`None` not-found signal when the key is absent. -/
def get {V : Type} : Table V → Int → Option (ProductRecord V)
  | [], _ => none
  | e :: rest, k => if e.1 = k then some e.2 else get rest k

/-- Embeds `ProductHashTable.delete` (app.py lines 114–118): when the key
is present, `del self.table[product_id]` removes its entry and the method
returns `True`; otherwise the table is untouched and it returns `False`. -/
def delete {V : Type} : Table V → Int → Table V × Bool
  | [], _ => ([], false)
  | e :: rest, k =>
      if e.1 = k then (rest, true)
      else
        let r := delete rest k
        (e :: r.1, r.2)

/-- Embeds `ProductHashTable.get_all` (app.py lines 120–121):
`list(self.table.values())`. -/
def get_all {V : Type} (t : Table V) : List (ProductRecord V) :=
  t.map Prod.snd

/-- Keys of the dict, in insertion order (`self.table.keys()`). -/
abbrev keys {V : Type} (t : Table V) : List Int :=
  t.map Prod.fst

/-- Embeds the record construction of `load_products_to_cache` (app.py
lines 134–145): the dict literal built from row `p` positionally,
`p[0] .. p[9]`, dropping `p[10]` (`created_at`). -/
def rowToRecord {V : Type} (p : Row V) : ProductRecord V :=
  { id := p.id, name := p.name, type := p.type, region := p.region,
    vintage := p.vintage, price := p.price, alcohol := p.alcohol,
    stock := p.stock, description := p.description,
    image_url := p.image_url }

/-- Embeds `product_cache.table.clear()` (app.py line 132). -/
def clear {V : Type} (_t : Table V) : Table V := []

/-- Embeds the loader's insertion loop (app.py lines 133–145):
`for p in products: product_cache.insert(p[0], {...})`. -/
def insertRows {V : Type} (rows : List (Row V)) (t : Table V) : Table V :=
  rows.foldl (fun acc p => insert acc p.id (rowToRecord p)) t

/-- Cache state after a successful run of `load_products_to_cache`
against store rows `rows`, starting from cache state `prior`: the cache
is cleared entirely, then every row is inserted keyed by `p[0]`. -/
def loadCache {V : Type} (rows : List (Row V)) (prior : Table V) : Table V :=
  insertRows rows (clear prior)

/-- Failure of the bulk read from the persistent store (the `execute` /
`fetchall` call raising: store unreachable or read error). -/
inductive DBErr : Type
  | unreachable
  | readError
deriving DecidableEq, Repr

/-- Observable outcome of one call to `load_products_to_cache`: whether
it returned normally or propagated a raised error, the resulting cache
state, and whether `conn.close()` (app.py line 130) ran. -/
structure LoadOutcome (V : Type) where
  result : Except DBErr Unit
  cache : Table V
  connClosed : Bool

/-- Embeds `load_products_to_cache` (app.py lines 125–145) with its
control flow made explicit. The bulk read (`c.execute("SELECT * FROM
products"); products = c.fetchall()`, lines 128–129) either yields the row
list or raises; there is no try/finally, so on a raise nothing after
line 129 runs: `conn.close()` (line 130) is skipped,
`product_cache.table.clear()` (line 132) is skipped, the cache keeps its
prior state and the exception propagates to the caller. On success the
connection is closed, the cache is cleared and refilled from the rows. -/
def load_products_to_cache {V : Type} (readResult : Except DBErr (List (Row V)))
    (prior : Table V) : LoadOutcome V :=
  match readResult with
  | .error e => { result := .error e, cache := prior, connClosed := false }
  | .ok products =>
      { result := .ok (), cache := loadCache products prior, connClosed := true }

/-- Cache operation issued by a caller of `ProductHashTable`. -/
inductive Op (V : Type) : Type
  | ins (k : Int) (v : ProductRecord V)
  | del (k : Int)
deriving DecidableEq

/-- Runs one cache operation. -/
def applyOp {V : Type} (t : Table V) : Op V → Table V
  | .ins k v => insert t k v
  | .del k => (delete t k).1

/-- Runs a sequence of cache operations in order. -/
def applyOps {V : Type} (t : Table V) (ops : List (Op V)) : Table V :=
  ops.foldl applyOp t

/-- Specification-side view of a sequence of operations at key `k`: the
last operation touching `k`, reported as `some (some v)` for an insert of
`v`, `some none` for a delete, and `none` when no operation touched `k`. -/
def lastWrite {V : Type} : List (Op V) → Int → Option (Option (ProductRecord V))
  | [], _ => none
  | op :: rest, k =>
      match lastWrite rest k with
      | some r => some r
      | none =>
          match op with
          | .ins k' v => if k' = k then some (some v) else none
          | .del k' => if k' = k then some none else none

/-- Well-formedness of a dict state: keys are pairwise distinct. Every
state an actual Python dict can be in satisfies this. -/
abbrev WF {V : Type} (t : Table V) : Prop := (keys t).Nodup

/-- Form data read by the `add_product` / `edit_product` handlers (app.py
lines 269–279 and 301–311): the nine product fields taken from
`request.form`; the id and `created_at` are supplied by the store. -/
structure FormData (V : Type) where
  name : V
  type : V
  region : V
  vintage : V
  price : V
  alcohol : V
  stock : V
  description : V
  image_url : V
deriving DecidableEq, Repr

/-- State of the persistent store's `products` table: its rows plus the
`AUTOINCREMENT` counter that assigns the next product id. -/
structure Store (V : Type) where
  rows : List (Row V)
  nextId : Int
deriving DecidableEq, Repr

/-- Combined state the admin route handlers act on: the persistent store
and the process-wide `product_cache`. -/
structure SysState (V : Type) where
  store : Store V
  cache : Table V
deriving DecidableEq, Repr

/-- Embeds the POST branch of `add_product` (app.py lines 265–288):
`INSERT INTO products (name, ..., image_url) VALUES (...)` with the id
drawn from the autoincrement counter and `created_at` defaulted to the
current timestamp `now`. The handler touches only the store. -/
def add_product {V : Type} (d : FormData V) (now : V) (s : SysState V) :
    SysState V :=
  { s with
    store :=
      { rows := s.store.rows ++
          [{ id := s.store.nextId, name := d.name, type := d.type,
             region := d.region, vintage := d.vintage, price := d.price,
             alcohol := d.alcohol, stock := d.stock,
             description := d.description, image_url := d.image_url,
             created_at := now }],
        nextId := s.store.nextId + 1 } }

/-- Embeds the POST branch of `edit_product` (app.py lines 291–322):
`SELECT ... WHERE id=?` (`fetchone`), redirect untouched when absent,
otherwise `UPDATE products SET name=?, ..., image_url=? WHERE id=?`,
which keeps the row's id and `created_at`. Only the store changes. -/
def edit_product {V : Type} (pid : Int) (d : FormData V) (s : SysState V) :
    SysState V :=
  match s.store.rows.find? (fun r => r.id == pid) with
  | none => s
  | some _ =>
      { s with
        store :=
          { s.store with
            rows := s.store.rows.map (fun r =>
              if r.id = pid then
                { r with
                  name := d.name
                  type := d.type
                  region := d.region
                  vintage := d.vintage
                  price := d.price
                  alcohol := d.alcohol
                  stock := d.stock
                  description := d.description
                  image_url := d.image_url }
              else r) } }

/-- Embeds `delete_product` (app.py lines 339–354): `SELECT ... WHERE
id=?` (`fetchone`), redirect untouched when absent, otherwise
`DELETE FROM products WHERE id=?`. Only the store changes; the
`product_cache` is never consulted or updated. -/
def delete_product {V : Type} (pid : Int) (s : SysState V) : SysState V :=
  match s.store.rows.find? (fun r => r.id == pid) with
  | none => s
  | some _ =>
      { s with
        store :=
          { s.store with
            rows := s.store.rows.filter (fun r => !(r.id == pid)) } }

/-- Concrete store row used to instantiate the theorems (the Merlot row
of the spec's worked scenario). -/
def sampleRow1 : Row String :=
  { id := 1, name := "Merlot", type := "Red", region := "Bordeaux",
    vintage := "2015", price := "12.5", alcohol := "13.5", stock := "10",
    description := "dry red", image_url := "merlot.png",
    created_at := "2025-01-01" }

/-- Second concrete store row, with a distinct id. -/
def sampleRow2 : Row String :=
  { id := 2, name := "Riesling", type := "White", region := "Mosel",
    vintage := "2019", price := "15.0", alcohol := "11.0", stock := "4",
    description := "off-dry white", image_url := "riesling.png",
    created_at := "2025-01-02" }

/-- Concrete two-row store contents. -/
def sampleRows : List (Row String) := [sampleRow1, sampleRow2]

/-- Cache record corresponding to `sampleRow1`. -/
def sampleRecord1 : ProductRecord String := rowToRecord sampleRow1

/-- Concrete one-entry cache state. -/
def sampleTable : Table String := [(1, sampleRecord1)]

/-! ### Basic lemmas about the dict operations -/

theorem keys_nil {V : Type} : keys (emptyTable V) = [] := rfl

theorem keys_cons {V : Type} (e : Int × ProductRecord V) (t : Table V) :
    keys (e :: t) = e.1 :: keys t := rfl

theorem WF_cons {V : Type} (e : Int × ProductRecord V) (t : Table V) :
    WF (e :: t) ↔ e.1 ∉ keys t ∧ WF t := by
  rw [WF, keys_cons, List.nodup_cons]

theorem get_insert {V : Type} (t : Table V) (k : Int) (v : ProductRecord V)
    (k' : Int) : get (insert t k v) k' = if k = k' then some v else get t k' := by
  induction t with
  | nil => simp [insert, get]
  | cons e rest ih =>
    simp only [insert]
    by_cases h1 : e.1 = k
    · subst h1
      by_cases h2 : e.1 = k' <;> simp [get, h2]
    · rw [if_neg h1]
      by_cases h2 : e.1 = k'
      · have h3 : ¬ (k = k') := fun h => h1 (h2.trans h.symm)
        simp [get, h2, h3]
      · simp [get, h2, ih]

theorem get_eq_none_iff {V : Type} (t : Table V) (k : Int) :
    get t k = none ↔ k ∉ keys t := by
  induction t with
  | nil => simp [get, keys]
  | cons e rest ih =>
    rw [keys_cons, List.mem_cons]
    by_cases h : e.1 = k
    · subst h
      simp [get]
    · have h' : ¬ (k = e.1) := fun hk => h hk.symm
      rw [get, if_neg h, ih]
      simp [h']

theorem mem_keys_insert {V : Type} (t : Table V) (k : Int) (v : ProductRecord V)
    (m : Int) : m ∈ keys (insert t k v) ↔ m = k ∨ m ∈ keys t := by
  induction t with
  | nil => simp [insert, keys]
  | cons e rest ih =>
    simp only [insert]
    by_cases h : e.1 = k
    · subst h
      rw [if_pos rfl]
      show m ∈ e.1 :: keys rest ↔ m = e.1 ∨ m ∈ e.1 :: keys rest
      simp only [List.mem_cons]
      tauto
    · rw [if_neg h]
      show m ∈ e.1 :: keys (insert rest k v) ↔ m = k ∨ m ∈ e.1 :: keys rest
      simp only [List.mem_cons, ih]
      tauto

theorem WF_insert {V : Type} (t : Table V) (k : Int) (v : ProductRecord V)
    (hwf : WF t) : WF (insert t k v) := by
  induction t with
  | nil => exact List.nodup_singleton k
  | cons e rest ih =>
    rw [WF_cons] at hwf
    simp only [insert]
    by_cases h : e.1 = k
    · subst h
      rw [if_pos rfl, WF_cons]
      exact hwf
    · rw [if_neg h, WF_cons]
      refine ⟨fun hmem => ?_, ih hwf.2⟩
      rcases (mem_keys_insert rest k v e.1).1 hmem with h' | h'
      · exact h h'
      · exact hwf.1 h'

theorem delete_fst_sublist {V : Type} (t : Table V) (k : Int) :
    (delete t k).1.Sublist t := by
  induction t with
  | nil => simp [delete]
  | cons e rest ih =>
    by_cases h : e.1 = k
    · simp only [delete, if_pos h]
      exact (List.sublist_cons_self e rest)
    · simp only [delete, if_neg h]
      exact ih.cons₂ e

theorem WF_delete {V : Type} (t : Table V) (k : Int) (hwf : WF t) :
    WF (delete t k).1 :=
  hwf.sublist ((delete_fst_sublist t k).map Prod.fst)

theorem get_delete {V : Type} (t : Table V) (k : Int) (k' : Int) (hwf : WF t) :
    get (delete t k).1 k' = if k = k' then none else get t k' := by
  induction t with
  | nil => simp [delete, get]
  | cons e rest ih =>
    rw [WF_cons] at hwf
    by_cases h : e.1 = k
    · subst h
      simp only [delete, if_pos rfl]
      by_cases h2 : e.1 = k'
      · subst h2
        rw [if_pos rfl]
        exact (get_eq_none_iff rest e.1).2 hwf.1
      · simp [get, h2]
    · simp only [delete, if_neg h]
      by_cases h2 : e.1 = k'
      · have h3 : ¬ (k = k') := fun hk => h (h2.trans hk.symm)
        simp [get, h2, h3]
      · simp [get, h2, ih hwf.2]

theorem delete_snd_eq {V : Type} (t : Table V) (k : Int) :
    (delete t k).2 = (get t k).isSome := by
  induction t with
  | nil => simp [delete, get]
  | cons e rest ih =>
    by_cases h : e.1 = k <;> simp [delete, get, h, ih]

theorem delete_of_absent {V : Type} (t : Table V) (k : Int)
    (h : get t k = none) : delete t k = (t, false) := by
  induction t with
  | nil => simp [delete]
  | cons e rest ih =>
    by_cases h1 : e.1 = k
    · simp [get, h1] at h
    · simp only [get, if_neg h1] at h
      simp [delete, h1, ih h]

theorem get_mem {V : Type} (t : Table V) (k : Int) (p : ProductRecord V)
    (h : get t k = some p) : (k, p) ∈ t := by
  induction t with
  | nil => simp [get] at h
  | cons e rest ih =>
    by_cases h1 : e.1 = k
    · simp only [get, if_pos h1, Option.some.injEq] at h
      have he : e = (k, p) := by
        cases e
        simp_all
      rw [← he]
      exact List.mem_cons_self e rest
    · simp only [get, if_neg h1] at h
      exact List.mem_cons_of_mem e (ih h)

theorem mem_insert_elim {V : Type} (t : Table V) (k : Int)
    (v : ProductRecord V) (e : Int × ProductRecord V)
    (h : e ∈ insert t k v) : e = (k, v) ∨ e ∈ t := by
  induction t with
  | nil => simpa [insert] using h
  | cons a rest ih =>
    simp only [insert] at h
    by_cases h1 : a.1 = k
    · rw [if_pos h1] at h
      rcases List.mem_cons.1 h with h' | h'
      · exact Or.inl h'
      · exact Or.inr (List.mem_cons_of_mem a h')
    · rw [if_neg h1] at h
      rcases List.mem_cons.1 h with h' | h'
      · exact Or.inr (h' ▸ List.mem_cons_self a rest)
      · rcases ih h' with h'' | h''
        · exact Or.inl h''
        · exact Or.inr (List.mem_cons_of_mem a h'')

/-! ### Lemmas about the loader's insertion loop -/

theorem insertRows_cons {V : Type} (r : Row V) (rows : List (Row V))
    (t : Table V) :
    insertRows (r :: rows) t = insertRows rows (insert t r.id (rowToRecord r)) :=
  rfl

theorem get_insertRows_untouched {V : Type} (rows : List (Row V))
    (t : Table V) (k : Int) (h : k ∉ rows.map Row.id) :
    get (insertRows rows t) k = get t k := by
  induction rows generalizing t with
  | nil => rfl
  | cons r rest ih =>
    simp only [List.map_cons, List.mem_cons] at h
    push_neg at h
    rw [insertRows_cons, ih _ h.2, get_insert, if_neg (fun hk => h.1 hk.symm)]

theorem length_insert_of_absent {V : Type} (t : Table V) (k : Int)
    (v : ProductRecord V) (h : k ∉ keys t) :
    (insert t k v).length = t.length + 1 := by
  induction t with
  | nil => rfl
  | cons e rest ih =>
    rw [keys_cons, List.mem_cons] at h
    push_neg at h
    have h1 : ¬ (e.1 = k) := fun hk => h.1 hk.symm
    simp only [insert, if_neg h1, List.length_cons, ih h.2]

theorem WF_insertRows {V : Type} (rows : List (Row V)) (t : Table V)
    (hwf : WF t) : WF (insertRows rows t) := by
  induction rows generalizing t with
  | nil => exact hwf
  | cons r rest ih => exact ih _ (WF_insert t r.id (rowToRecord r) hwf)

theorem length_insertRows_fresh {V : Type} (rows : List (Row V)) (t : Table V)
    (hn : (rows.map Row.id).Nodup) (hfresh : ∀ r ∈ rows, r.id ∉ keys t) :
    (insertRows rows t).length = t.length + rows.length := by
  induction rows generalizing t with
  | nil => rfl
  | cons r rest ih =>
    rw [List.map_cons, List.nodup_cons] at hn
    rw [insertRows_cons, ih _ hn.2, length_insert_of_absent _ _ _
      (hfresh r (List.mem_cons_self r rest)), List.length_cons]
    · ring
    · intro r' hr'
      rw [mem_keys_insert]
      push_neg
      refine ⟨fun hid => hn.1 ?_, hfresh r' (List.mem_cons_of_mem r hr')⟩
      rw [← hid]
      exact List.mem_map_of_mem Row.id hr'

theorem get_insertRows_of_mem {V : Type} (rows : List (Row V)) (t : Table V)
    (r : Row V) (hn : (rows.map Row.id).Nodup) (hr : r ∈ rows) :
    get (insertRows rows t) r.id = some (rowToRecord r) := by
  induction rows generalizing t with
  | nil => cases hr
  | cons a rest ih =>
    rw [List.map_cons, List.nodup_cons] at hn
    rcases List.mem_cons.1 hr with h | h
    · subst h
      rw [insertRows_cons, get_insertRows_untouched rest _ r.id hn.1,
        get_insert, if_pos rfl]
    · rw [insertRows_cons]
      exact ih _ hn.2 h

theorem isSome_get_insertRows {V : Type} (rows : List (Row V)) (t : Table V)
    (k : Int) :
    (get (insertRows rows t) k).isSome = true ↔
      (∃ r ∈ rows, r.id = k) ∨ (get t k).isSome = true := by
  induction rows generalizing t with
  | nil => simp [insertRows]
  | cons a rest ih =>
    rw [insertRows_cons, ih]
    constructor
    · rintro (⟨r, hr, hid⟩ | hs)
      · exact Or.inl ⟨r, List.mem_cons_of_mem a hr, hid⟩
      · rw [get_insert] at hs
        by_cases h : a.id = k
        · exact Or.inl ⟨a, List.mem_cons_self a rest, h⟩
        · rw [if_neg h] at hs
          exact Or.inr hs
    · rintro (⟨r, hr, hid⟩ | hs)
      · rcases List.mem_cons.1 hr with h | h
        · subst h
          right
          rw [get_insert, if_pos hid]
          rfl
        · exact Or.inl ⟨r, h, hid⟩
      · right
        rw [get_insert]
        by_cases h : a.id = k
        · rw [if_pos h]
          rfl
        · rwa [if_neg h]

theorem mem_insertRows_elim {V : Type} (rows : List (Row V)) (t : Table V)
    (e : Int × ProductRecord V) (he : e ∈ insertRows rows t) :
    e ∈ t ∨ ∃ r ∈ rows, e = (r.id, rowToRecord r) := by
  induction rows generalizing t with
  | nil => exact Or.inl he
  | cons a rest ih =>
    rw [insertRows_cons] at he
    rcases ih _ he with h | ⟨r, hr, hre⟩
    · rcases mem_insert_elim t a.id (rowToRecord a) e h with h' | h'
      · exact Or.inr ⟨a, List.mem_cons_self a rest, h'⟩
      · exact Or.inl h'
    · exact Or.inr ⟨r, List.mem_cons_of_mem a hr, hre⟩

/-! ### Lemmas about sequences of cache operations -/

theorem WF_applyOp {V : Type} (t : Table V) (op : Op V) (hwf : WF t) :
    WF (applyOp t op) := by
  cases op with
  | ins k v => exact WF_insert t k v hwf
  | del k => exact WF_delete t k hwf

theorem WF_applyOps {V : Type} (ops : List (Op V)) (t : Table V)
    (hwf : WF t) : WF (applyOps t ops) := by
  induction ops generalizing t with
  | nil => exact hwf
  | cons op rest ih => exact ih _ (WF_applyOp t op hwf)

theorem get_applyOps {V : Type} (ops : List (Op V)) (t : Table V) (k : Int)
    (hwf : WF t) :
    get (applyOps t ops) k = (lastWrite ops k).getD (get t k) := by
  induction ops generalizing t with
  | nil => rfl
  | cons op rest ih =>
    have step : applyOps t (op :: rest) = applyOps (applyOp t op) rest := rfl
    rw [step, ih _ (WF_applyOp t op hwf)]
    cases hlw : lastWrite rest k with
    | some r => simp [lastWrite, hlw]
    | none =>
      cases op with
      | ins k' v =>
        simp only [lastWrite, hlw, applyOp, get_insert]
        by_cases h : k' = k <;> simp [h]
      | del k' =>
        simp only [lastWrite, hlw, applyOp, get_delete _ _ _ hwf]
        by_cases h : k' = k <;> simp [h]

/-! ### The claims -/

/-- C1: after the Cache Loader runs against a Persistent Store containing
N product rows (their ids pairwise distinct, as the store's `INTEGER
PRIMARY KEY` column guarantees), `get_all()` on the Product Cache returns
exactly N records, and each record matches its source row field-for-field
under the fixed positional mapping, with the row's `created_at` ignored. -/
theorem C1_load_populates_cache {V : Type} (rows : List (Row V))
    (prior : Table V) (hids : (rows.map Row.id).Nodup) :
    (get_all (loadCache rows prior)).length = rows.length ∧
    ∀ r ∈ rows, ∃ p : ProductRecord V,
      get (loadCache rows prior) r.id = some p ∧
      p.id = r.id ∧ p.name = r.name ∧ p.type = r.type ∧
      p.region = r.region ∧ p.vintage = r.vintage ∧ p.price = r.price ∧
      p.alcohol = r.alcohol ∧ p.stock = r.stock ∧
      p.description = r.description ∧ p.image_url = r.image_url := by
  constructor
  · have hlen := length_insertRows_fresh rows (clear prior) hids
      (by intro r _; simp [clear, keys])
    calc (get_all (loadCache rows prior)).length
        = (loadCache rows prior).length := List.length_map _ _
      _ = (clear prior).length + rows.length := hlen
      _ = rows.length := by simp [clear]
  · intro r hr
    exact ⟨rowToRecord r, get_insertRows_of_mem rows _ r hids hr,
      rfl, rfl, rfl, rfl, rfl, rfl, rfl, rfl, rfl, rfl⟩

/-- Witness for C1 at a concrete two-row store. -/
theorem C1_witness :
    (sampleRows.map Row.id).Nodup ∧
    (get_all (loadCache sampleRows (emptyTable String))).length = 2 :=
  ⟨by decide,
   (C1_load_populates_cache sampleRows (emptyTable String) (by decide)).1⟩

/-- C2: the Cache Loader is a total replace, not a merge — the resulting
cache is the same whatever the prior cache state was (in particular after
a previous load of different contents), and a key is present in the
result exactly when some current store row carries it. -/
theorem C2_load_total_replace {V : Type} (rows₁ rows₂ : List (Row V))
    (prior : Table V) :
    loadCache rows₂ (loadCache rows₁ prior) = loadCache rows₂ (emptyTable V) ∧
    loadCache rows₂ prior = loadCache rows₂ (emptyTable V) ∧
    ∀ k, (get (loadCache rows₂ prior) k).isSome = true ↔
      ∃ r ∈ rows₂, r.id = k := by
  refine ⟨rfl, rfl, fun k => ?_⟩
  rw [loadCache, isSome_get_insertRows]
  simp [clear, get]

/-- C3: last-write-wins — after any finite sequence of insert/delete
operations on the initially empty Product Cache, `get(id)` reflects the
last operation that touched `id`: the inserted record after an insert,
the not-found signal after a delete or when no operation touched `id`. -/
theorem C3_last_write_wins {V : Type} (ops : List (Op V)) (k : Int) :
    get (applyOps (emptyTable V) ops) k =
      match lastWrite ops k with
      | some (some v) => some v
      | some none => none
      | none => none := by
  rw [get_applyOps ops (emptyTable V) k List.nodup_nil]
  cases hlw : lastWrite ops k with
  | none => rfl
  | some r => cases r <;> rfl

/-- C4: `delete(id)` removes the entry for `id` when present and returns
true; on an absent key it returns false and leaves the dict state
literally unchanged (so delete is idempotent). -/
theorem C4_delete_semantics {V : Type} (t : Table V) (k : Int)
    (hwf : WF t) :
    ((get t k).isSome = true →
        (delete t k).2 = true ∧
        get (delete t k).1 k = none ∧
        ∀ k', k' ≠ k → get (delete t k).1 k' = get t k') ∧
    (get t k = none → delete t k = (t, false)) := by
  constructor
  · intro hs
    refine ⟨?_, ?_, ?_⟩
    · rw [delete_snd_eq, hs]
    · rw [get_delete t k k hwf, if_pos rfl]
    · intro k' hk
      rw [get_delete t k k' hwf, if_neg (fun h => hk h.symm)]
  · exact delete_of_absent t k

/-- Witness for C4: delete of the present key 1 removes it and returns
true; delete of the absent key 2 returns false and changes nothing. -/
theorem C4_witness :
    WF sampleTable ∧ (get sampleTable 1).isSome = true ∧
    get sampleTable 2 = none ∧
    (delete sampleTable 1).2 = true ∧
    get (delete sampleTable 1).1 1 = none ∧
    delete sampleTable 2 = (sampleTable, false) := by
  have h1 := C4_delete_semantics sampleTable 1 (by decide)
  have h2 := C4_delete_semantics sampleTable 2 (by decide)
  exact ⟨by decide, by decide, by decide,
    (h1.1 (by decide)).1, (h1.1 (by decide)).2.1, h2.2 (by decide)⟩

/-- C5: in every reachable cache state, the length of `get_all()` equals
the number of distinct identifiers currently present (inserted and not
subsequently deleted). -/
theorem C5_get_all_length {V : Type} (ops : List (Op V)) :
    (get_all (applyOps (emptyTable V) ops)).length =
      (keys (applyOps (emptyTable V) ops)).toFinset.card ∧
    ∀ k, k ∈ (keys (applyOps (emptyTable V) ops)).toFinset ↔
      (get (applyOps (emptyTable V) ops) k).isSome = true := by
  have hwf : WF (applyOps (emptyTable V) ops) :=
    WF_applyOps ops (emptyTable V) List.nodup_nil
  constructor
  · rw [List.toFinset_card_of_nodup hwf]
    calc (get_all (applyOps (emptyTable V) ops)).length
        = (applyOps (emptyTable V) ops).length := List.length_map _ _
      _ = (keys (applyOps (emptyTable V) ops)).length :=
          (List.length_map _ _).symm
  · intro k
    rw [List.mem_toFinset, Option.isSome_iff_ne_none, Ne, get_eq_none_iff,
      not_not]

/-- C6: every cache operation is a total function of the cache state and
its arguments; `get(id)` in particular always returns a defined value —
the stored record when `id` is present, the explicit not-found signal
(`None`) exactly when `id` is absent — rather than raising. -/
theorem C6_operations_total {V : Type} (t : Table V) (k : Int) :
    ((get t k = none ∨ ∃ p, get t k = some p) ∧
     (get t k = none ↔ k ∉ keys t)) ∧
    ((delete t k).2 = false ∨ (delete t k).2 = true) := by
  refine ⟨⟨?_, get_eq_none_iff t k⟩, ?_⟩
  · cases h : get t k with
    | none => exact Or.inl rfl
    | some p => exact Or.inr ⟨p, rfl⟩
  · cases h : (delete t k).2 with
    | false => exact Or.inl rfl
    | true => exact Or.inr rfl

/-- C7: when the bulk read from the Persistent Store fails, the loader
propagates the failure to its caller and the Product Cache is left
exactly as it was — never partially cleared, never partially filled. -/
theorem C7_load_failure_preserves_cache {V : Type} (e : DBErr)
    (prior : Table V) :
    (load_products_to_cache (Except.error e) prior).result =
      Except.error e ∧
    (load_products_to_cache (Except.error e) prior).cache = prior :=
  ⟨rfl, rfl⟩

/-- C8 counterexample: the claim says the store connection is released on
every execution of the loader, including when the bulk read raises — but
on a read failure `conn.close()` (line 130, after `fetchall` and with no
try/finally around it) never runs. -/
theorem C8_counterexample :
    (load_products_to_cache (Except.error DBErr.readError)
      (emptyTable String)).connClosed = false := rfl

/-- C8 as amended: the connection is released before the loader returns
on every execution where the bulk read succeeds; when the read raises,
the failure propagates without the connection having been closed. -/
theorem C8_conn_closed_on_success_only {V : Type} (rows : List (Row V))
    (e : DBErr) (prior : Table V) :
    (load_products_to_cache (Except.ok rows) prior).connClosed = true ∧
    (load_products_to_cache (Except.error e) prior).connClosed = false :=
  ⟨rfl, rfl⟩

/-- C9: the admin product mutations (add, edit, delete) change only the
Persistent Store and leave the Product Cache untouched — in particular,
after `delete_product` removes a product's row from the store, `get` on
the cache still answers from the previously loaded state. -/
theorem C9_mutations_bypass_cache {V : Type} (s : SysState V) (pid : Int)
    (d : FormData V) (now : V) :
    (add_product d now s).cache = s.cache ∧
    (edit_product pid d s).cache = s.cache ∧
    (delete_product pid s).cache = s.cache ∧
    (∀ k, get (delete_product pid s).cache k = get s.cache k) ∧
    ((delete_product pid s).store.rows.find? (fun r => r.id == pid))
      = none := by
  have hedit : (edit_product pid d s).cache = s.cache := by
    rw [edit_product]
    cases s.store.rows.find? (fun r => r.id == pid) <;> rfl
  have hdel : (delete_product pid s).cache = s.cache := by
    rw [delete_product]
    cases hf : s.store.rows.find? (fun r => r.id == pid) <;> rfl
  refine ⟨rfl, hedit, hdel, fun k => by rw [hdel], ?_⟩
  rw [delete_product]
  cases hf : s.store.rows.find? (fun r => r.id == pid) with
  | none => exact hf
  | some r =>
    rw [List.find?_eq_none]
    intro x hx
    rw [List.mem_filter] at hx
    simpa using hx.2

/-- C10: immediately after the Cache Loader runs, the cache is
self-keyed — any record `get(k)` returns has its `'id'` field equal to
`k`, because the loader keys each record by the id field of the row it
was built from. -/
theorem C10_cache_self_keyed {V : Type} (rows : List (Row V))
    (prior : Table V) (k : Int) (p : ProductRecord V)
    (h : get (loadCache rows prior) k = some p) : p.id = k := by
  have hmem := get_mem _ _ _ h
  rcases mem_insertRows_elim rows (clear prior) (k, p) hmem with h' | hex
  · simp [clear] at h'
  · obtain ⟨r, _, hre⟩ := hex
    have h1 : k = r.id := congrArg Prod.fst hre
    have h2 : p = rowToRecord r := congrArg Prod.snd hre
    rw [h2, h1]
    rfl

/-- Witness for C10 at the concrete sample load. -/
theorem C10_witness :
    get (loadCache sampleRows (emptyTable String)) 1 = some sampleRecord1 ∧
    sampleRecord1.id = 1 :=
  ⟨by decide,
   C10_cache_self_keyed sampleRows (emptyTable String) 1 sampleRecord1
     (by decide)⟩

end CellarSociety
